import Mathlib

/-
Shallow embedding of src/elimination_operators.py from the tsp-genetic-algorithm
repository, together with spec-modelled stand-ins for the collaborators that the
module imports but whose sources are not part of the repository snapshot
(fitness_utils.calc_shared_fitnesses, selection_operators.k_tournament_selection,
the Individual method calc_shared_fitness, and the module-level name
fitness_sharing that is referenced but never defined).

Modelling choices:
- fitness values are real numbers in the spec; they are embedded as Rat, which is
  exact for every operation the code performs (add, mul, div, max, pow, compare).
- the sharing shape exponent alpha is embedded as Nat so that the power
  (d / sigma) ^ alpha stays executable; the code default is alpha = 1.
- genotype is opaque: only a caller-supplied distance function reads it.
- Python sorted with a fitness key is a stable ascending sort; List.insertionSort
  with the non-strict key order is stable, hence extensionally the same
  transformation.
- np.argmin over the singleton wrapping, as in np.argmin([xs]), flattens to the
  argmin of xs, the index of the first minimum.
- randomness for tournaments is passed explicitly: the external random source is
  embedded as the list of sampled pool indices it would produce.
- in-place mutation of shared_fitness is embedded by explicit state passing over a
  store of individuals; lists of ids play the role of Python lists of references.
-/

namespace GA

/-- Individual data model from the spec: a fitness value (lower is better), an
opaque genotype token read only through a distance function, and a mutable
shared_fitness slot used by the fitness-sharing variant. -/
structure Individual where
  fitness : Rat
  genotype : Nat
  shared_fitness : Rat
deriving DecidableEq, Repr, Inhabited

/-- Key order used by every sorted call in the module: ascending raw fitness. -/
def fitLe (a b : Individual) : Prop := a.fitness ≤ b.fitness

instance : DecidableRel fitLe :=
  fun a b => inferInstanceAs (Decidable (a.fitness ≤ b.fitness))

instance : IsTotal Individual fitLe := ⟨fun a b => le_total a.fitness b.fitness⟩

instance : IsTrans Individual fitLe := ⟨fun _ _ _ h1 h2 => le_trans h1 h2⟩

/-- Embedding of sorted(combined, key fitness, reverse False): stable ascending
sort by raw fitness. -/
def sortByFitness (l : List Individual) : List Individual :=
  List.insertionSort fitLe l

/-- Sharing accumulation sum of spec section 4.1: over all survivors s, add
max 0 (1 - (d / sigma) ^ alpha) where d is the genotype distance. -/
def sharingSum (dist : Individual → Individual → Rat) (cand : Individual)
    (survivors : List Individual) (alpha : Nat) (sigma : Rat) : Rat :=
  (survivors.map (fun s => max 0 (1 - (dist cand s / sigma) ^ alpha))).sum

/-- Modelled from the spec: the shared-fitness value of section 4.1, the core of
fitness_utils which is imported by the module but missing from the sources.
Result is fitness times (1 + sharing sum). -/
def sharedFitness (dist : Individual → Individual → Rat) (cand : Individual)
    (survivors : List Individual) (alpha : Nat) (sigma : Rat) : Rat :=
  cand.fitness * (1 + sharingSum dist cand survivors alpha sigma)

/-- Modelled from the spec: calc_shared_fitnesses from fitness_utils (imported,
missing from the sources): the shared fitness of every member of the pool
against the current survivor set, in pool order, so that an argmin over the
returned values indexes back into the pool. -/
def calc_shared_fitnesses (dist : Individual → Individual → Rat)
    (pool survivors : List Individual) (alpha : Nat) (sigma : Rat) : List Rat :=
  pool.map (fun c => sharedFitness dist c survivors alpha sigma)

/-- Accumulator for np_argmin: remaining values, best value so far, its index,
and the index of the next value. -/
def argminAux : List Rat → Rat → Nat → Nat → Nat
  | [], _, best, _ => best
  | y :: ys, bv, best, i =>
      if y < bv then argminAux ys y i (i + 1) else argminAux ys bv best (i + 1)

/-- Embedding of np.argmin on a rational vector: index of the first minimum. -/
def np_argmin : List Rat → Nat
  | [] => 0
  | x :: xs => argminAux xs x 0 1

/-- Loop body of fitness_sharing_elimination: lambda_ times, compute the shared
fitnesses of the whole sorted pool against the current survivors, then append
the pool member at the argmin index. -/
def fseLoop (dist : Individual → Individual → Rat) (combined : List Individual)
    (alpha : Nat) (sigma : Rat) : Nat → List Individual → List Individual
  | 0, survivors => survivors
  | n + 1, survivors =>
      let fitnesses := calc_shared_fitnesses dist combined survivors alpha sigma
      let idx := np_argmin fitnesses
      fseLoop dist combined alpha sigma n (survivors ++ [combined.getD idx default])

/-- Embedding of fitness_sharing_elimination: combine population and offspring,
stable-sort ascending by fitness, seed survivors with the sorted head (an
IndexError on an empty pool is embedded as none), then run the selection loop
lambda_ times. -/
def fitness_sharing_elimination (dist : Individual → Individual → Rat)
    (offspring population : List Individual) (lambda_ : Nat)
    (alpha : Nat) (sigma : Rat) : Option (List Individual) :=
  let combined := sortByFitness (population ++ offspring)
  match combined with
  | [] => none
  | c0 :: rest => some (fseLoop dist (c0 :: rest) alpha sigma lambda_ [c0])

/-- Error outcomes of the embedded module. The undefined module-level name
fitness_sharing makes the flag lookup fail at runtime when no configuration
supplies it; that failure is surfaced as configurationMissing. -/
inductive ElimError where
  | configurationMissing
deriving DecidableEq, Repr

/-- Store of individuals for the state-passing embedding of in-place mutation;
ids are positions in the store. -/
abbrev Store := List Individual

/-- Fitness of the individual an id refers to. -/
def fitAt (store : Store) (i : Nat) : Rat := (store.getD i default).fitness

/-- Key order on ids: ascending fitness of the referenced individuals. -/
def idLe (store : Store) (i j : Nat) : Prop := fitAt store i ≤ fitAt store j

instance (store : Store) : DecidableRel (idLe store) :=
  fun i j => inferInstanceAs (Decidable (fitAt store i ≤ fitAt store j))

instance (store : Store) : IsTotal Nat (idLe store) :=
  ⟨fun i j => le_total (fitAt store i) (fitAt store j)⟩

instance (store : Store) : IsTrans Nat (idLe store) :=
  ⟨fun _ _ _ h1 h2 => le_trans h1 h2⟩

/-- Stable ascending sort of a list of ids by the fitness of the referenced
individuals. -/
def sortIdsByFitness (store : Store) (l : List Nat) : List Nat :=
  List.insertionSort (idLe store) l

/-- Modelled from the spec: the Individual method calc_shared_fitness (the
Individual class is missing from the sources): recompute the shared fitness of
the individual against the given other survivors with the accumulation formula
of section 4.1 and persist it into the shared_fitness slot, in place. -/
def calc_shared_fitness (dist : Individual → Individual → Rat)
    (store : Store) (id : Nat) (others : List Individual)
    (alpha : Nat) (sigma : Rat) : Store :=
  let me := store.getD id default
  store.set id { me with shared_fitness := sharedFitness dist me others alpha sigma }

/-- One pass of the fitness-sharing branch of lambda_plus_mu_elimination:
update the individual combined[idx] against the other survivors
combined[:idx] + combined[idx+1:], read from the current store. -/
def lpmStep (dist : Individual → Individual → Rat) (alpha : Nat) (sigma : Rat)
    (combined : List Nat) (st : Store) (idx : Nat) : Store :=
  calc_shared_fitness dist st (combined.getD idx 0)
    (((combined.take idx) ++ (combined.drop (idx + 1))).map
      (fun j => st.getD j default))
    alpha sigma

/-- Fitness-sharing branch of lambda_plus_mu_elimination: one lpmStep for each
idx in range(1, len(combined)). -/
def lpmShareLoop (dist : Individual → Individual → Rat) (alpha : Nat)
    (sigma : Rat) (combined : List Nat) (store : Store) : Store :=
  (List.range' 1 (combined.length - 1)).foldl
    (lpmStep dist alpha sigma combined) store

/-- Embedding of lambda_plus_mu_elimination: combine population and offspring,
stable-sort ascending by fitness, truncate to the top lambda_, then branch on
the fitness_sharing flag. The flag is a module-level name the module never
defines, so it is embedded as an optional external configuration; reading it
without a configuration is the configurationMissing error. -/
def lambda_plus_mu_elimination (dist : Individual → Individual → Rat)
    (fitness_sharing : Option Bool) (offspring population : List Nat)
    (store : Store) (lambda_ : Nat) (alpha : Nat) (sigma : Rat) :
    Except ElimError (List Nat × Store) :=
  let combined := population ++ offspring
  let combined := sortIdsByFitness store combined
  let combined := combined.take lambda_
  match fitness_sharing with
  | none => Except.error ElimError.configurationMissing
  | some fs =>
      if fs then Except.ok (combined, lpmShareLoop dist alpha sigma combined store)
      else Except.ok (combined, store)

/-- Python slice l[:-k]: for k = 0 the slice l[:0] is empty, for k larger than
the length it is also empty, otherwise it is the first (length - k) elements. -/
def pyDropTail {α : Type} (l : List α) (k : Nat) : List α :=
  if k = 0 then [] else l.take (l.length - k)

/-- Embedding of replace_worst: drop the last len(offspring) members of the
population via the slice population[:-len(offspring)], append the offspring,
stable-sort ascending by fitness and keep the first lambda_. -/
def replace_worst (offspring population : List Individual)
    (lambda_ : Nat) : List Individual :=
  let combined := pyDropTail population offspring.length ++ offspring
  let new_combined := sortByFitness combined
  new_combined.take lambda_

/-- Modelled from the spec: k_tournament_selection from selection_operators
(imported, missing from the sources): sample k individuals uniformly at random
with replacement from the pool and return the one with minimum fitness. The
random draws of the external source are supplied as the index list sample, of
which the first k entries are consumed. -/
def k_tournament_selection (pool : List Individual) (k : Nat)
    (sample : List Nat) : Individual :=
  match (sample.take k).map (fun i => pool.getD i default) with
  | [] => default
  | c :: cs => cs.foldl (fun best x => if x.fitness < best.fitness then x else best) c

/-- Embedding of k_tournament_elimination: combine population and offspring,
stable-sort ascending by fitness, seed the result with the sorted head (an
IndexError on an empty pool is embedded as none) and append lambda_ - 1
tournament winners; samples lists the index draws of the random source, one
entry per tournament. -/
def k_tournament_elimination (offspring population : List Individual)
    (lambda_ : Nat) (k : Nat) (samples : List (List Nat)) :
    Option (List Individual) :=
  let combined := sortByFitness (population ++ offspring)
  match combined with
  | [] => none
  | c0 :: rest =>
      some (c0 :: (List.range (lambda_ - 1)).map
        (fun t => k_tournament_selection (c0 :: rest) k (samples.getD t [])))

/-- Concrete genotype distance used by the concrete instances: zero between
identical genotype tokens and 10 otherwise (symmetric, zero on the diagonal). -/
def dist0 (a b : Individual) : Rat := if a.genotype = b.genotype then 0 else 10

/-- Concrete individual of fitness 1. -/
def indA : Individual := ⟨1, 0, 0⟩

/-- Concrete individual of fitness 100, far from indA. -/
def indB : Individual := ⟨100, 1, 0⟩

/-- Population member of fitness 5. -/
def i5 : Individual := ⟨5, 0, 0⟩

/-- Population member of fitness 3. -/
def i3 : Individual := ⟨3, 1, 0⟩

/-- Population member of fitness 8. -/
def i8 : Individual := ⟨8, 2, 0⟩

/-- Offspring member of fitness 1. -/
def o1 : Individual := ⟨1, 3, 0⟩

/-- Offspring member of fitness 9. -/
def o9 : Individual := ⟨9, 4, 0⟩

/-- Concrete two-individual store for the state-passing strategy. -/
def store0 : Store := [⟨5, 0, 0⟩, ⟨3, 1, 0⟩]

/-- The store store0 after the fitness-sharing branch wrote the shared fitness
of the second survivor (id 0, distance 10 beyond sigma 1, so no penalty). -/
def store1 : Store := [⟨5, 0, 5⟩, ⟨3, 1, 0⟩]

/-- C2 counterexample: on population fitnesses [5,3,8], offspring [1,9] and
lambda_ = 2, replace_worst does not return fitnesses [1,3]: the slice drops the
last two population members (3 and 8), not only the worst one. -/
theorem replace_worst_example_not_one_three :
    (replace_worst [o1, o9] [i5, i3, i8] 2).map Individual.fitness ≠ [1, 3] := by
  decide

/-- C2 amended: on population fitnesses [5,3,8], offspring [1,9] and
lambda_ = 2, replace_worst drops the last len(offspring) = 2 population members
(3 and 8), combines [5,1,9], sorts to [1,5,9] and returns fitnesses [1,5]. -/
theorem replace_worst_example_one_five :
    (replace_worst [o1, o9] [i5, i3, i8] 2).map Individual.fitness = [1, 5] := by
  decide

/-- C3 counterexample: with offspring longer than the population the code does
not raise anything: at population [5], offspring [1,9], lambda_ = 2 it returns
the normal value of fitnesses [1,9], built from the empty slice
population[:-2] plus the offspring. -/
theorem replace_worst_no_guard_eval :
    (replace_worst [o1, o9] [i5] 2).map Individual.fitness = [1, 9] := by
  decide

/-- C3 amended: when len(offspring) exceeds len(population), replace_worst
performs no validation and raises no error: the slice population[:-len(offspring)]
is empty, so the result is just the best lambda_ members of the sorted
offspring. -/
theorem replace_worst_no_guard (offspring population : List Individual)
    (lambda_ : Nat) (h : population.length < offspring.length) :
    replace_worst offspring population lambda_ =
      (sortByFitness offspring).take lambda_ := by
  have hk : offspring.length ≠ 0 := by omega
  have hz : population.length - offspring.length = 0 := by omega
  simp [replace_worst, pyDropTail, hk, hz]

/-- C3 amended witness at population [5], offspring [1,9], lambda_ = 2. -/
theorem replace_worst_no_guard_witness :
    replace_worst [o1, o9] [i5] 2 = (sortByFitness [o1, o9]).take 2 :=
  replace_worst_no_guard [o1, o9] [i5] 2 (by decide)

/-- C6: the fitness-sharing branch of lambda_plus_mu_elimination reads a flag
the module never defines; with no configuration supplying it, the call is the
configurationMissing error for every input, never a silent no-op returning the
truncated list. -/
theorem lambda_plus_mu_requires_config (dist : Individual → Individual → Rat)
    (offspring population : List Nat) (store : Store)
    (lambda_ alpha : Nat) (sigma : Rat) :
    lambda_plus_mu_elimination dist none offspring population store
      lambda_ alpha sigma = Except.error ElimError.configurationMissing := rfl

/-- C10: with an empty offspring list, replace_worst returns the empty list for
every population and every lambda_, because population[:-0] is the empty slice
population[:0], not the whole population. -/
theorem replace_worst_empty_offspring (population : List Individual)
    (lambda_ : Nat) :
    replace_worst [] population lambda_ = [] := by
  simp [replace_worst, pyDropTail, sortByFitness]

/-- Each pass of the selection loop appends exactly one pool member. -/
theorem fseLoop_length (dist : Individual → Individual → Rat)
    (combined : List Individual) (alpha : Nat) (sigma : Rat) :
    ∀ (n : Nat) (survivors : List Individual),
      (fseLoop dist combined alpha sigma n survivors).length =
        survivors.length + n := by
  intro n
  induction n with
  | zero => intro survivors; rfl
  | succ m ih =>
      intro survivors
      rw [fseLoop, ih]
      simp
      omega

/-- C5: on a non-empty combined pool, fitness_sharing_elimination returns a
survivor list of length exactly lambda_ + 1: one seeded best candidate plus one
appended member per loop pass. -/
theorem fitness_sharing_elimination_length (dist : Individual → Individual → Rat)
    (offspring population : List Individual) (lambda_ alpha : Nat) (sigma : Rat)
    (h : population ++ offspring ≠ []) :
    ∃ res, fitness_sharing_elimination dist offspring population lambda_
        alpha sigma = some res ∧ res.length = lambda_ + 1 := by
  have hperm := List.perm_insertionSort fitLe (population ++ offspring)
  have hne : sortByFitness (population ++ offspring) ≠ [] := by
    intro hcon
    apply h
    have hlen := hperm.length_eq
    rw [show List.insertionSort fitLe (population ++ offspring) =
      sortByFitness (population ++ offspring) from rfl, hcon] at hlen
    exact List.length_eq_zero.mp hlen.symm
  rcases hsort : sortByFitness (population ++ offspring) with _ | ⟨c0, rest⟩
  · exact absurd hsort hne
  · refine ⟨fseLoop dist (c0 :: rest) alpha sigma lambda_ [c0], ?_, ?_⟩
    · rw [fitness_sharing_elimination, hsort]
    · rw [fseLoop_length]
      simp [Nat.add_comm]

/-- C5 witness at the two-individual pool, lambda_ = 1. -/
theorem fitness_sharing_elimination_length_witness :
    ∃ res, fitness_sharing_elimination dist0 [indB] [indA] 1 1 1 = some res ∧
      res.length = 2 :=
  fitness_sharing_elimination_length dist0 [indB] [indA] 1 1 1 (by decide)

/-- C1: evaluation at the failing input. Pool of two individuals with fitnesses
1 and 100 at genotype distance 10, sigma = 1, alpha = 1, lambda_ = 1. After the
seed, the loop computes shared fitnesses of the WHOLE pool against the
survivors, seed included (2 for the seed, 100 for the other member), so the
argmin re-selects the seed and the call returns the seed twice, although the
claim mandates that only the one member not yet in survivors be considered and
appended. -/
theorem fitness_sharing_elimination_reselects_survivor :
    fitness_sharing_elimination dist0 [indB] [indA] 1 1 1 =
      some [indA, indA] ∧ indA ≠ indB := by
  constructor
  · norm_num [fitness_sharing_elimination, sortByFitness, List.insertionSort,
      List.orderedInsert, fitLe, fseLoop, calc_shared_fitnesses, sharedFitness,
      sharingSum, np_argmin, argminAux, dist0, indA, indB]
  · decide

/-- The stable sort by fitness produces a list ascending in fitness. -/
theorem sortByFitness_sorted (l : List Individual) :
    List.Sorted fitLe (sortByFitness l) :=
  List.sorted_insertionSort fitLe l

/-- The stable sort by fitness permutes its input. -/
theorem sortByFitness_perm (l : List Individual) :
    (sortByFitness l).Perm l :=
  List.perm_insertionSort fitLe l

/-- The stable id sort produces a list ascending in referenced fitness. -/
theorem sortIdsByFitness_sorted (store : Store) (l : List Nat) :
    List.Sorted (idLe store) (sortIdsByFitness store l) :=
  List.sorted_insertionSort (idLe store) l

/-- The stable id sort permutes its input. -/
theorem sortIdsByFitness_perm (store : Store) (l : List Nat) :
    (sortIdsByFitness store l).Perm l :=
  List.perm_insertionSort (idLe store) l

/-- The slice l[:-k] only keeps elements of l. -/
theorem pyDropTail_subset {α : Type} (l : List α) (k : Nat) :
    pyDropTail l k ⊆ l := by
  unfold pyDropTail
  split
  · exact List.nil_subset l
  · exact List.take_subset _ l

/-- C4 counterexample: at population fitnesses [5,3], offspring [1] and
lambda_ = 3 (a valid input of the claim: lambda_ does not exceed the combined
pool size 3 and every fitness is defined), replace_worst returns only 2
individuals, not lambda_ = 3, because the slice already discarded one parent. -/
theorem replace_worst_length_not_lambda :
    ¬ ((replace_worst [o1] [i5, i3] 3).length = 3) := by decide

/-- C4 amended: with the fitness-sharing configuration supplied and lambda_ at
most the combined pool size, lambda_plus_mu_elimination returns exactly lambda_
ids, ascending in fitness, all drawn from population ++ offspring; replace_worst
always returns a list ascending in fitness whose members come from
population ++ offspring, but its length is the minimum of lambda_ and the
reduced pool population[:-len(offspring)] + offspring, which can fall short of
lambda_. -/
theorem elimination_shape :
    (∀ (dist : Individual → Individual → Rat) (fs : Bool)
        (offspring population : List Nat) (store : Store)
        (lambda_ alpha : Nat) (sigma : Rat) (res : List Nat) (store' : Store),
        lambda_ ≤ population.length + offspring.length →
        lambda_plus_mu_elimination dist (some fs) offspring population store
          lambda_ alpha sigma = Except.ok (res, store') →
        res.length = lambda_ ∧ List.Sorted (idLe store) res ∧
          ∀ i ∈ res, i ∈ population ++ offspring) ∧
    (∀ (offspring population : List Individual) (lambda_ : Nat),
        List.Sorted fitLe (replace_worst offspring population lambda_) ∧
        (∀ x ∈ replace_worst offspring population lambda_,
          x ∈ population ++ offspring) ∧
        (replace_worst offspring population lambda_).length =
          min lambda_ (pyDropTail population offspring.length ++ offspring).length) := by
  constructor
  · intro dist fs offspring population store lambda_ alpha sigma res store' hlam h
    have hres : res = (sortIdsByFitness store (population ++ offspring)).take lambda_ := by
      cases fs <;> simp [lambda_plus_mu_elimination] at h <;> exact h.1.symm
    have hperm := sortIdsByFitness_perm store (population ++ offspring)
    refine ⟨?_, ?_, ?_⟩
    · rw [hres, List.length_take, hperm.length_eq]
      simp
      omega
    · rw [hres]
      exact List.Pairwise.sublist (List.take_sublist _ _) (sortIdsByFitness_sorted store _)
    · intro i hi
      rw [hres] at hi
      exact hperm.mem_iff.mp (List.take_subset _ _ hi)
  · intro offspring population lambda_
    have hperm := sortByFitness_perm (pyDropTail population offspring.length ++ offspring)
    refine ⟨?_, ?_, ?_⟩
    · exact List.Pairwise.sublist (List.take_sublist _ _)
        (sortByFitness_sorted (pyDropTail population offspring.length ++ offspring))
    · intro x hx
      have hx2 := hperm.mem_iff.mp (List.take_subset _ _ hx)
      rcases List.mem_append.mp hx2 with hx3 | hx3
      · exact List.mem_append.mpr (Or.inl (pyDropTail_subset population _ hx3))
      · exact List.mem_append.mpr (Or.inr hx3)
    · rw [replace_worst, List.length_take]
      rw [hperm.length_eq]

/-- C4 amended witness: the lambda_plus_mu part at a two-individual store with
the flag configured off and lambda_ = 2, the replace_worst part at population
fitnesses [5,3], offspring [1], lambda_ = 3. -/
theorem elimination_shape_witness :
    (([1, 0] : List Nat).length = 2 ∧ List.Sorted (idLe store0) [1, 0] ∧
      ∀ i ∈ ([1, 0] : List Nat), i ∈ ([0] : List Nat) ++ [1]) ∧
    List.Sorted fitLe (replace_worst [o1] [i5, i3] 3) :=
  ⟨elimination_shape.1 dist0 false [1] [0] store0 2 1 1 [1, 0] store0
      (by decide) rfl,
    (elimination_shape.2 [o1] [i5, i3] 3).1⟩

/-- The tournament fold keeps either the seed or one of the later entries. -/
theorem pickFold_mem (cs : List Individual) :
    ∀ c : Individual,
      cs.foldl (fun best x => if x.fitness < best.fitness then x else best) c ∈
        c :: cs := by
  induction cs with
  | nil => intro c; simp
  | cons y ys ih =>
      intro c
      simp only [List.foldl_cons]
      have h := ih (if y.fitness < c.fitness then y else c)
      rcases List.mem_cons.mp h with h1 | h1
      · rw [h1]
        split
        · exact List.mem_cons_of_mem _ (List.mem_cons_self _ _)
        · exact List.mem_cons_self _ _
      · exact List.mem_cons_of_mem _ (List.mem_cons_of_mem _ h1)

/-- The tournament fold result has minimal fitness among the seed and the
later entries. -/
theorem pickFold_le (cs : List Individual) :
    ∀ c x : Individual, x ∈ c :: cs →
      (cs.foldl (fun best y => if y.fitness < best.fitness then y else best)
          c).fitness ≤ x.fitness := by
  induction cs with
  | nil =>
      intro c x hx
      simp only [List.foldl_nil]
      rcases List.mem_cons.mp hx with h | h
      · rw [h]
      · simp at h
  | cons y ys ih =>
      intro c x hx
      simp only [List.foldl_cons]
      have hfc : (if y.fitness < c.fitness then y else c).fitness ≤ c.fitness := by
        by_cases h : y.fitness < c.fitness
        · rw [if_pos h]; exact le_of_lt h
        · rw [if_neg h]
      have hfy : (if y.fitness < c.fitness then y else c).fitness ≤ y.fitness := by
        by_cases h : y.fitness < c.fitness
        · rw [if_pos h]
        · rw [if_neg h]; exact le_of_not_lt h
      have hhead := ih (if y.fitness < c.fitness then y else c)
        (if y.fitness < c.fitness then y else c) (List.mem_cons_self _ _)
      rcases List.mem_cons.mp hx with h | h
      · rw [h]; exact le_trans hhead hfc
      · rcases List.mem_cons.mp h with h2 | h2
        · rw [h2]; exact le_trans hhead hfy
        · exact ih _ x (List.mem_cons_of_mem _ h2)

/-- A tournament winner is a member of the pool whenever the consumed sample is
non-empty and its indices are in range. -/
theorem k_tournament_selection_mem (pool : List Individual) (k : Nat)
    (sample : List Nat) (hne : sample.take k ≠ [])
    (hb : ∀ i ∈ sample.take k, i < pool.length) :
    k_tournament_selection pool k sample ∈ pool := by
  unfold k_tournament_selection
  rcases hm : (sample.take k).map (fun i => pool.getD i default) with _ | ⟨c, cs⟩
  · exact absurd (List.map_eq_nil_iff.mp hm) hne
  · have hw := pickFold_mem cs c
    have hsub : ∀ x ∈ (c :: cs), x ∈ pool := by
      intro x hx
      rw [← hm] at hx
      rcases List.mem_map.mp hx with ⟨i, hi, hxi⟩
      have hib := hb i hi
      rw [← hxi]
      have hg : pool.getD i default = pool[i] := by
        rw [List.getD_eq_getElem?_getD, List.getElem?_eq_getElem hib]
        rfl
      rw [hg]
      exact List.getElem_mem hib
    exact hsub _ hw

/-- A tournament winner has fitness at most that of every sampled member. -/
theorem k_tournament_selection_le (pool : List Individual) (k : Nat)
    (sample : List Nat) :
    ∀ i ∈ sample.take k,
      (k_tournament_selection pool k sample).fitness ≤
        (pool.getD i default).fitness := by
  intro i hi
  unfold k_tournament_selection
  rcases hm : (sample.take k).map (fun j => pool.getD j default) with _ | ⟨c, cs⟩
  · exact absurd (List.map_eq_nil_iff.mp hm) (List.ne_nil_of_mem hi)
  · have hmem : pool.getD i default ∈ c :: cs := by
      rw [← hm]
      exact List.mem_map_of_mem _ hi
    exact pickFold_le cs c _ hmem

/-- C7: with lambda_ and k at least 1, a non-empty combined pool, and a random
source whose per-tournament draws are non-empty in-range index lists,
k_tournament_elimination returns exactly lambda_ individuals, the first of
which is a minimum-fitness member of the combined pool, and all of which are
members of population or offspring (duplicates permitted). -/
theorem k_tournament_elimination_shape (offspring population : List Individual)
    (lambda_ k : Nat) (samples : List (List Nat))
    (hl : 1 ≤ lambda_) (hk : 1 ≤ k)
    (hp : population ++ offspring ≠ [])
    (hs : ∀ t, t < lambda_ - 1 → samples.getD t [] ≠ [] ∧
        ∀ i ∈ samples.getD t [], i < (population ++ offspring).length) :
    ∃ res,
      k_tournament_elimination offspring population lambda_ k samples =
        some res ∧
      res.length = lambda_ ∧
      (∀ x ∈ res, x ∈ population ++ offspring) ∧
      ∃ c0, res.head? = some c0 ∧ c0 ∈ population ++ offspring ∧
        ∀ x ∈ population ++ offspring, c0.fitness ≤ x.fitness := by
  have hperm := sortByFitness_perm (population ++ offspring)
  have hne : sortByFitness (population ++ offspring) ≠ [] := by
    intro hcon
    apply hp
    have hlen := hperm.length_eq
    rw [hcon] at hlen
    exact List.length_eq_zero.mp hlen.symm
  rcases hsort : sortByFitness (population ++ offspring) with _ | ⟨c0, rest⟩
  · exact absurd hsort hne
  have hpermc : (c0 :: rest).Perm (population ++ offspring) := hsort ▸ hperm
  have hsorted : List.Sorted fitLe (c0 :: rest) :=
    hsort ▸ sortByFitness_sorted (population ++ offspring)
  refine ⟨c0 :: (List.range (lambda_ - 1)).map
      (fun t => k_tournament_selection (c0 :: rest) k (samples.getD t [])), ?_, ?_, ?_, ?_⟩
  · rw [k_tournament_elimination, hsort]
  · simp only [List.length_cons, List.length_map, List.length_range]
    omega
  · intro x hx
    rcases List.mem_cons.mp hx with h | h
    · rw [h]
      exact hpermc.mem_iff.mp (List.mem_cons_self _ _)
    · rcases List.mem_map.mp h with ⟨t, ht, hxt⟩
      have htl : t < lambda_ - 1 := List.mem_range.mp ht
      obtain ⟨hsnon, hsb⟩ := hs t htl
      have htake : (samples.getD t []).take k ≠ [] := by
        intro hcon
        rcases List.take_eq_nil_iff.mp hcon with h0 | h0
        · omega
        · exact hsnon h0
      have hbound : ∀ i ∈ (samples.getD t []).take k, i < (c0 :: rest).length := by
        intro i hi
        have := hsb i (List.take_subset _ _ hi)
        rw [← hpermc.length_eq] at this
        exact this
      rw [← hxt]
      exact hpermc.mem_iff.mp
        (k_tournament_selection_mem (c0 :: rest) k (samples.getD t []) htake hbound)
  · refine ⟨c0, rfl, hpermc.mem_iff.mp (List.mem_cons_self _ _), ?_⟩
    intro x hx
    have hxc : x ∈ c0 :: rest := hpermc.mem_iff.mpr hx
    rcases List.mem_cons.mp hxc with h | h
    · rw [h]
    · exact (List.sorted_cons.mp hsorted).1 x h

/-- C7 witness: population fitnesses [5,3,8], offspring [1,9], lambda_ = 2,
k = 2, one tournament drawing index 1 twice. -/
theorem k_tournament_elimination_shape_witness :
    ∃ res,
      k_tournament_elimination [o1, o9] [i5, i3, i8] 2 2 [[1, 1]] = some res ∧
      res.length = 2 ∧
      (∀ x ∈ res, x ∈ [i5, i3, i8] ++ [o1, o9]) ∧
      ∃ c0, res.head? = some c0 ∧ c0 ∈ [i5, i3, i8] ++ [o1, o9] ∧
        ∀ x ∈ [i5, i3, i8] ++ [o1, o9], c0.fitness ≤ x.fitness :=
  k_tournament_elimination_shape [o1, o9] [i5, i3, i8] 2 2 [[1, 1]]
    (by decide) (by decide) (by decide)
    (by
      intro t ht
      have h0 : t = 0 := by omega
      subst h0
      exact ⟨by decide, by decide⟩)

/-- C8 counterexample: pool of fitnesses [1,3], k = 2 equal to the pool size,
lambda_ = 2, and a random source whose single tournament draws index 1 twice:
the tournament returns the fitness-3 member, not the global minimum, so with
replacement sampling the claimed determinism fails. -/
theorem k_tournament_not_deterministic :
    k_tournament_elimination [] [o1, i3] 2 2 [[1, 1]] = some [o1, i3] ∧
      i3.fitness ≠ o1.fitness ∧
      ∀ x ∈ ([o1, i3] : List Individual), o1.fitness ≤ x.fitness := by
  exact ⟨by decide, by decide, by decide⟩

/-- C8 amended: a tournament run (for any k, in particular k equal to the pool
size) returns a pool member of minimal fitness exactly when its random draws
include an index holding a minimum-fitness member; sampling with replacement
may miss every such index, so determinism for every random source fails. -/
theorem tournament_min_when_sampled (pool : List Individual) (k : Nat)
    (sample : List Nat)
    (hb : ∀ i ∈ sample.take k, i < pool.length)
    (hmin : ∃ i ∈ sample.take k,
      ∀ x ∈ pool, (pool.getD i default).fitness ≤ x.fitness) :
    k_tournament_selection pool k sample ∈ pool ∧
      ∀ x ∈ pool, (k_tournament_selection pool k sample).fitness ≤ x.fitness := by
  rcases hmin with ⟨i, hi, hxmin⟩
  have hne : sample.take k ≠ [] := List.ne_nil_of_mem hi
  refine ⟨k_tournament_selection_mem pool k sample hne hb, ?_⟩
  intro x hx
  exact le_trans (k_tournament_selection_le pool k sample i hi) (hxmin x hx)

/-- C8 amended witness: pool of fitnesses [1,3], k = 2, sample [0,1] whose
first draw holds the minimum. -/
theorem tournament_min_when_sampled_witness :
    k_tournament_selection [o1, i3] 2 [0, 1] ∈ ([o1, i3] : List Individual) ∧
      ∀ x ∈ ([o1, i3] : List Individual),
        (k_tournament_selection [o1, i3] 2 [0, 1]).fitness ≤ x.fitness :=
  tournament_min_when_sampled [o1, i3] 2 [0, 1] (by decide)
    ⟨0, by decide, by decide⟩

/-- The shared-fitness write never changes the store length. -/
theorem calc_shared_fitness_length (dist : Individual → Individual → Rat)
    (st : Store) (id : Nat) (others : List Individual) (alpha : Nat)
    (sigma : Rat) :
    (calc_shared_fitness dist st id others alpha sigma).length = st.length := by
  simp [calc_shared_fitness]

/-- The shared-fitness write leaves every other store entry untouched. -/
theorem calc_shared_fitness_getD_ne (dist : Individual → Individual → Rat)
    (st : Store) (id : Nat) (others : List Individual) (alpha : Nat)
    (sigma : Rat) (j : Nat) (h : j ≠ id) :
    (calc_shared_fitness dist st id others alpha sigma).getD j default =
      st.getD j default := by
  simp [calc_shared_fitness, List.getD_eq_getElem?_getD,
    List.getElem?_set_ne (Ne.symm h)]

/-- The shared-fitness write preserves the fitness and genotype of every store
entry: only the shared_fitness slot can change. -/
theorem calc_shared_fitness_fields (dist : Individual → Individual → Rat)
    (st : Store) (id : Nat) (others : List Individual) (alpha : Nat)
    (sigma : Rat) (j : Nat) :
    fitAt (calc_shared_fitness dist st id others alpha sigma) j = fitAt st j ∧
      ((calc_shared_fitness dist st id others alpha sigma).getD j
        default).genotype = (st.getD j default).genotype := by
  by_cases hj : j = id
  · subst hj
    by_cases hlt : j < st.length
    · constructor <;>
        simp [calc_shared_fitness, fitAt, List.getD_eq_getElem?_getD,
          List.getElem?_set_self hlt, List.getElem?_eq_getElem hlt]
    · constructor <;>
        simp [calc_shared_fitness, fitAt,
          List.set_eq_of_length_le (le_of_not_lt hlt)]
  · have h := calc_shared_fitness_getD_ne dist st id others alpha sigma j hj
    exact ⟨by rw [fitAt, h, fitAt], by rw [h]⟩

/-- Frame property of the fitness-sharing fold: the store length and every
fitness and genotype are preserved, and entries at none of the written ids are
wholly unchanged. -/
theorem lpmFold_frame (dist : Individual → Individual → Rat) (alpha : Nat)
    (sigma : Rat) (combined : List Nat) :
    ∀ (idxs : List Nat) (st : Store),
      ((idxs.foldl (lpmStep dist alpha sigma combined) st).length = st.length) ∧
      (∀ j, fitAt (idxs.foldl (lpmStep dist alpha sigma combined) st) j =
          fitAt st j ∧
        ((idxs.foldl (lpmStep dist alpha sigma combined) st).getD j
            default).genotype = (st.getD j default).genotype) ∧
      (∀ j, (∀ idx ∈ idxs, combined.getD idx 0 ≠ j) →
        (idxs.foldl (lpmStep dist alpha sigma combined) st).getD j default =
          st.getD j default) := by
  intro idxs
  induction idxs with
  | nil => exact fun st => ⟨rfl, fun j => ⟨rfl, rfl⟩, fun j _ => rfl⟩
  | cons a as ih =>
      intro st
      simp only [List.foldl_cons]
      obtain ⟨ihlen, ihfields, ihframe⟩ :=
        ih (lpmStep dist alpha sigma combined st a)
      refine ⟨?_, ?_, ?_⟩
      · rw [ihlen, lpmStep, calc_shared_fitness_length]
      · intro j
        obtain ⟨h1, h2⟩ := ihfields j
        obtain ⟨h3, h4⟩ := calc_shared_fitness_fields dist st
          (combined.getD a 0)
          (((combined.take a) ++ (combined.drop (a + 1))).map
            (fun j => st.getD j default)) alpha sigma j
        exact ⟨by rw [h1, lpmStep, h3], by rw [h2, lpmStep, h4]⟩
      · intro j hj
        have hja : combined.getD a 0 ≠ j := hj a (List.mem_cons_self _ _)
        rw [ihframe j (fun idx hidx => hj idx (List.mem_cons_of_mem _ hidx)),
          lpmStep, calc_shared_fitness_getD_ne]
        exact fun hcon => hja hcon.symm

/-- A getD entry at a position of at least 1 belongs to the tail drop 1. -/
theorem getD_mem_drop_one (l : List Nat) (idx : Nat) (h1 : 1 ≤ idx)
    (h2 : idx < l.length) : l.getD idx 0 ∈ l.drop 1 := by
  cases l with
  | nil => simp at h2
  | cons a t =>
      cases idx with
      | zero => omega
      | succ m =>
          have hm : m < t.length := by
            simp at h2
            omega
          have hg : (a :: t).getD (m + 1) 0 = t.getD m 0 := by
            simp [List.getD_cons_succ]
          rw [hg, List.drop_one]
          have ht : t.getD m 0 = t[m] := by
            rw [List.getD_eq_getElem?_getD, List.getElem?_eq_getElem hm]
            rfl
          rw [List.tail_cons, ht]
          exact List.getElem_mem hm

/-- C9: the state-passing embedding of lambda_plus_mu_elimination records every
in-place effect of the module in the returned store; whenever the call
succeeds, the store keeps its length, the fitness and genotype of every
individual are unchanged, and every entry not referenced by a survivor beyond
the seeded first one is wholly unchanged — so the only mutation is the
shared_fitness slot of survivors in the fitness-sharing branch. The other three
strategies are embedded as pure list functions because their code performs no
write at all. -/
theorem lambda_plus_mu_frame (dist : Individual → Individual → Rat) (fs : Bool)
    (offspring population : List Nat) (store : Store) (lambda_ alpha : Nat)
    (sigma : Rat) (res : List Nat) (store' : Store)
    (h : lambda_plus_mu_elimination dist (some fs) offspring population store
      lambda_ alpha sigma = Except.ok (res, store')) :
    store'.length = store.length ∧
    (∀ i, fitAt store' i = fitAt store i ∧
      (store'.getD i default).genotype = (store.getD i default).genotype) ∧
    (∀ i, i ∉ res.drop 1 → store'.getD i default = store.getD i default) := by
  cases fs with
  | false =>
      simp only [lambda_plus_mu_elimination, Bool.false_eq_true, if_false,
        Except.ok.injEq, Prod.mk.injEq] at h
      rw [← h.2]
      exact ⟨rfl, fun i => ⟨rfl, rfl⟩, fun i _ => rfl⟩
  | true =>
      simp only [lambda_plus_mu_elimination, if_true, Except.ok.injEq,
        Prod.mk.injEq] at h
      obtain ⟨hres, hst⟩ := h
      obtain ⟨hlen, hfields, hframe⟩ := lpmFold_frame dist alpha sigma
        ((sortIdsByFitness store (population ++ offspring)).take lambda_)
        (List.range' 1
          (((sortIdsByFitness store (population ++ offspring)).take
            lambda_).length - 1)) store
      rw [← hst, lpmShareLoop]
      refine ⟨hlen, hfields, ?_⟩
      intro i hi
      apply hframe
      intro idx hidx hcon
      apply hi
      rw [← hres, ← hcon]
      have hb := List.mem_range'_1.mp hidx
      apply getD_mem_drop_one
      · exact hb.1
      · omega

/-- C9 witness: the two-individual store with the sharing flag on; the entry of
the seed survivor is untouched and the fitness of the rewritten survivor is
preserved. -/
theorem lambda_plus_mu_frame_witness :
    fitAt store1 0 = fitAt store0 0 ∧
      store1.getD 1 default = store0.getD 1 default := by
  have h := lambda_plus_mu_frame dist0 true [1] [0] store0 2 1 1 [1, 0] store1
    (by
      norm_num [lambda_plus_mu_elimination, sortIdsByFitness,
        List.insertionSort, List.orderedInsert, idLe, fitAt, lpmShareLoop,
        lpmStep, calc_shared_fitness, sharedFitness, sharingSum, dist0,
        store0, store1, List.range'])
  exact ⟨(h.2.1 0).1, h.2.2 1 (by decide)⟩

end GA
